import Mathlib

/-!
Shallow embedding of the INI parser and its config store from
`src/plr/IniFile.cpp` (WildSheepStudio/ApplicationTools), together with
proofs about the claims of the natural-language specification.

Modelling conventions:
* A C string (null-terminated buffer) is a `List Char`; the end of the list
  stands for the terminating null, and the parser's cursor `_str` is the
  remaining suffix of the input.  A pointer difference `_str - beg` becomes
  `beg.length - rest.length`, and the token `[beg, _str)` becomes
  `beg.take (beg.length - rest.length)`.
* The hash collaborator (`StringHash`) is opaque in the spec and is used only
  for equality tests, so it is modelled by the identity embedding
  `Hash := Option (List Char)`: `some name` is the hash of `name` and `none`
  is the sentinel `StringHash::kInvalidHash` (= `IniFile::kDefaultSection`).
* The libc numeric collaborators `strtol`/`strtod` are external to the
  repository; the parser is parameterized over their results (`CNum`).  The
  double result is carried as an exact `Rat`: the code never computes with
  it, it only stores it and compares it against `0.0`.  A simple decimal
  reference instantiation `cnumRef` is provided for concrete scenarios.
* The C++ `Key::m_type` field is left uninitialized until the first value is
  parsed; it is modelled as `Option ValueType` with `none` for
  "uninitialized" (the code never branches on the uninitialized content:
  the homogeneity check short-circuits on `m_count > 0`).
* The top-level `while (*_str != 0)` parse loop genuinely diverges on some
  inputs (a stray non-alphanumeric character such as `}` makes an iteration
  that consumes nothing), so the loop takes fuel; `none` means the fuel ran
  out, i.e. the C++ call has not returned within that many iterations.
-/

set_option autoImplicit false

namespace Ini

/-- Character class of `isdigit` in the C locale. -/
def isdigit (c : Char) : Bool := '0' ≤ c && c ≤ '9'

/-- Character class of `isalnum` in the C locale (ASCII letters and digits). -/
def isalnum (c : Char) : Bool :=
  ('a' ≤ c && c ≤ 'z') || ('A' ≤ c && c ≤ 'Z') || isdigit c

/-- Character class of `isspace` in the C locale. -/
def isspace (c : Char) : Bool :=
  c = ' ' || c = '\t' || c = '\n' || c = '\x0b' || c = '\x0c' || c = '\r'

/-- Embedding of `IsLineEnd`: `strchr(kLineEnd, c)` with `kLineEnd = "\n"`.
(The C `strchr` also matches the terminating null, but every call site
guards with `**_str != 0` first, and a null never occurs inside the list
model.) -/
def IsLineEnd (c : Char) : Bool := c = '\n'

/-- Embedding of `SkipWhitespace`: advance past `isspace` characters,
counting line ends.  Returns the remaining suffix and the line counter. -/
def SkipWhitespace : List Char → Nat → List Char × Nat
  | [], line => ([], line)
  | c :: cs, line =>
    if isspace c then SkipWhitespace cs (if IsLineEnd c then line + 1 else line)
    else (c :: cs, line)

/-- Embedding of `AdvanceToNext`: advance until the delimiter `ch` or the end
of the buffer.  Returns the remaining suffix, the line counter, and
`**_str != 0` (whether the delimiter was found). -/
def AdvanceToNext : List Char → Char → Nat → List Char × Nat × Bool
  | [], _, line => ([], line, false)
  | c :: cs, ch, line =>
    if c = ch then (c :: cs, line, true)
    else AdvanceToNext cs ch (if IsLineEnd c then line + 1 else line)

/-- Embedding of `AdvanceToNextNonAlphanumeric`: advance while `isalnum`.
(The line-end check inside the C loop is kept even though a newline is never
alphanumeric.) -/
def AdvanceToNextNonAlphanumeric : List Char → Nat → List Char × Nat × Bool
  | [], line => ([], line, false)
  | c :: cs, line =>
    if isalnum c then
      AdvanceToNextNonAlphanumeric cs (if IsLineEnd c then line + 1 else line)
    else (c :: cs, line, true)

/-- Embedding of `AdvanceToNextWhiteSpaceOrComma`: advance while the current
character is neither whitespace nor a comma. -/
def AdvanceToNextWhiteSpaceOrComma : List Char → Nat → List Char × Nat × Bool
  | [], line => ([], line, false)
  | c :: cs, line =>
    if !(isspace c || c = ',') then
      AdvanceToNextWhiteSpaceOrComma cs (if IsLineEnd c then line + 1 else line)
    else (c :: cs, line, true)

/-- First phase of `SkipLine`: advance to the end of the current line. -/
def SkipLineAux : List Char → List Char
  | [] => []
  | c :: cs => if IsLineEnd c then c :: cs else SkipLineAux cs

/-- Embedding of `SkipLine`: advance to the end of the current line and
consume the line terminator, incrementing the line counter. -/
def SkipLine (s : List Char) (line : Nat) : List Char × Nat :=
  match SkipLineAux s with
  | [] => ([], line)
  | _ :: cs => (cs, line + 1)

/-- Inner loop of `ContainsAny`: does the character `b` occur in the C string
`cs`? -/
def charInStr (b : Char) : List Char → Bool
  | [] => false
  | c :: cs => if b = c then true else charInStr b cs

/-- Embedding of `ContainsAny`: does any character of the token `tok` (the
range `[_beg, _end)`) occur in the character set `cs`? -/
def ContainsAny : List Char → List Char → Bool
  | [], _ => false
  | b :: bs, cs => if charInStr b cs then true else ContainsAny bs cs

/-! ### The config store -/

/-- Value types inferred by the parser (`IniFile::ValueType`). -/
inductive ValueType where
  | kBool
  | kInt
  | kDouble
  | kString
deriving DecidableEq, Repr

/-- Hashed name: the spec's opaque hash collaborator, modelled by the
identity embedding.  `none` is `StringHash::kInvalidHash`. -/
abbrev Hash := Option (List Char)

/-- Embedding of `StringHash::kInvalidHash`, which is also
`IniFile::kDefaultSection`. -/
def kInvalidHash : Hash := none

/-- Embedding of `IniFile::kDefaultSection`. -/
def kDefaultSection : Hash := kInvalidHash

/-- Embedding of `IniFile::Value`: the C union tagged by the owning key's
type.  The string case owns its buffer; the double is the exact value
returned by the `strtod` collaborator. -/
inductive Value where
  | vBool (b : Bool)
  | vInt (i : Int)
  | vDouble (d : Rat)
  | vString (s : List Char)
deriving DecidableEq, Repr

/-- Embedding of `IniFile::Section`.  The aggregate initializers in
`IniFile::parse` write `{ name, 0u, m_keys.size() }`, and the spec fixes
`keyOffset` as "index into the global key list where this section's keys
begin", so the field order of the (header-only) struct is
name, count, keyOffset. -/
structure IniSection where
  m_name : Hash
  m_count : Nat
  m_keyOffset : Nat
deriving DecidableEq, Repr

/-- Embedding of `IniFile::Key`.  `m_type` is uninitialized (`none`) until
the first value of the key is parsed. -/
structure Key where
  m_key : Hash
  m_valueOffset : Nat
  m_count : Nat
  m_type : Option ValueType
deriving DecidableEq, Repr

/-- Embedding of the `IniFile` store: the three append-only flattened
sequences. -/
structure Store where
  m_sections : List IniSection
  m_keys : List Key
  m_values : List Value
deriving DecidableEq, Repr

/-- A freshly constructed `IniFile` (all sequences empty). -/
def emptyStore : Store := ⟨[], [], []⟩

/-- Embedding of `IniFile::Error`. -/
inductive Error where
  | kOk
  | kFileNotFound
  | kFileIo
  | kSyntax
deriving DecidableEq, Repr

/-- Results of the libc numeric collaborators `strtol(beg, 0, 0)` and
`strtod(beg, 0)` applied to a numeric token.  (Both stop at the first
character they cannot consume, and neither consumes whitespace or a comma
when the input starts with a sign or digit, so applying them to the token
`[beg, _str)` is equivalent to applying them to `beg`.) -/
structure CNum where
  strtol : List Char → Int
  strtod : List Char → Rat

/-- Replace the last element of a list (the effect of mutating
`container.back()` through a reference). -/
def updateLast {α : Type} (f : α → α) : List α → List α
  | [] => []
  | [a] => [f a]
  | a :: b :: rest => a :: updateLast f (b :: rest)

/-- The character set `".eEnN"` of the numeric-classification heuristic. -/
def dotEENN : List Char := ['.', 'e', 'E', 'n', 'N']

/-- Embedding of the numeric branch of `IniFile::parse` (lines 206-231):
classify the token once the `strtol`/`strtod` results are in hand. -/
def classifyNumber (cn : CNum) (tok : List Char) : ValueType × Value :=
  let l := cn.strtol tok
  let d := cn.strtod tok
  if d = 0 ∧ l ≠ 0 then (ValueType.kInt, Value.vInt l)
  else if l = 0 ∧ d ≠ 0 then (ValueType.kDouble, Value.vDouble d)
  else if ContainsAny tok dotEENN then (ValueType.kDouble, Value.vDouble d)
  else (ValueType.kInt, Value.vInt l)

/-- Result of parsing one value after `'='`/`','` (lines 181-236).
`err tSet` is a syntax error; `tSet` records the type already assigned to
the key before the error was detected (the unterminated-string error happens
after `k.m_type = ValueType::kString` was executed). -/
inductive ValueResult where
  | err (tSet : Option ValueType)
  | ok (t : ValueType) (v : Value) (rest : List Char) (line : Nat)
deriving DecidableEq, Repr

/-- Embedding of the value scanner of `IniFile::parse` (lines 181-236): the
cursor stands just after the separator, whitespace and comments already
skipped. -/
def parseValue (cn : CNum) (s : List Char) (line : Nat) : ValueResult :=
  match s with
  | [] => ValueResult.err none
  | c :: rest =>
    if c = '"' then
      let q := AdvanceToNext rest '"' line
      if q.2.2 then
        let tok := rest.take (rest.length - q.1.length)
        ValueResult.ok ValueType.kString (Value.vString tok) q.1.tail q.2.1
      else ValueResult.err (some ValueType.kString)
    else if c = 't' || c = 'f' then
      let q := AdvanceToNextWhiteSpaceOrComma (c :: rest) line
      ValueResult.ok ValueType.kBool (Value.vBool (if c = 't' then true else false)) q.1 q.2.1
    else if isdigit c || c = '-' || c = '+' then
      let q := AdvanceToNextWhiteSpaceOrComma (c :: rest) line
      let tok := (c :: rest).take ((c :: rest).length - q.1.length)
      let tv := classifyNumber cn tok
      ValueResult.ok tv.1 tv.2 q.1 q.2.1
    else ValueResult.err none

/-- Set the type of the last key, as the failed string branch leaves it
(`tSet = none` leaves the store untouched). -/
def setLastKeyType (st : Store) (tSet : Option ValueType) : Store :=
  match tSet with
  | none => st
  | some t => { st with m_keys := updateLast (fun kk => { kk with m_type := some t }) st.m_keys }

/-- Embedding of the tail of the `'='`/`','` branch (lines 170-242 minus the
value scan): assign the new type to the last key through the reference `k`,
push the value, run the homogeneity check against the saved old type, and
increment the count on success. -/
def pushValueToKey (st : Store) (tnew : ValueType) (v : Value) : (Error × Store) ⊕ Store :=
  match st.m_keys.getLast? with
  | none => Sum.inl (Error.kSyntax, st)
  | some k =>
    if 0 < k.m_count ∧ some tnew ≠ k.m_type then
      Sum.inl (Error.kSyntax,
        { st with
            m_keys := updateLast (fun kk => { kk with m_type := some tnew }) st.m_keys,
            m_values := st.m_values ++ [v] })
    else
      Sum.inr
        { st with
            m_keys := updateLast (fun kk => { kk with m_count := kk.m_count + 1 })
              (updateLast (fun kk => { kk with m_type := some tnew }) st.m_keys),
            m_values := st.m_values ++ [v] }

/-- Fueled form of the comment loop `while (*_str == ';') { SkipLine;
SkipWhitespace; }` between a separator and its value.   Each iteration
consumes at least one character (`';'` is not a line end), so fuel
`s.length` never runs out; the fuel only makes the recursion structural. -/
def skipCommentsFuel : Nat → List Char → Nat → List Char × Nat
  | 0, s, line => (s, line)
  | fuel + 1, s, line =>
    match s with
    | ';' :: _ =>
      let q := SkipLine s line
      let p := SkipWhitespace q.1 q.2
      skipCommentsFuel fuel p.1 p.2
    | _ => (s, line)

/-- Comment loop between a separator and its value (lines 175-178). -/
def skipComments (s : List Char) (line : Nat) : List Char × Nat :=
  skipCommentsFuel s.length s line

/-- Embedding of the `'='`/`','` branch of `IniFile::parse` (lines 165-242);
`rest` is the input just after the separator. -/
def parseSep (cn : CNum) (st : Store) (rest : List Char) (line : Nat) :
    (Error × Store) ⊕ (Store × List Char × Nat) :=
  if st.m_keys.isEmpty then Sum.inl (Error.kSyntax, st)
  else
    match parseValue cn (skipComments (SkipWhitespace rest line).1 (SkipWhitespace rest line).2).1
        (skipComments (SkipWhitespace rest line).1 (SkipWhitespace rest line).2).2 with
    | ValueResult.err tSet => Sum.inl (Error.kSyntax, setLastKeyType st tSet)
    | ValueResult.ok t v s3 l3 =>
      match pushValueToKey st t v with
      | Sum.inl es => Sum.inl es
      | Sum.inr st1 => Sum.inr (st1, s3, l3)

/-- Embedding of the `'['` branch of `IniFile::parse` (lines 154-164);
`rest` is the input just after `'['`. -/
def parseSection (st : Store) (rest : List Char) (line : Nat) :
    (Error × Store) ⊕ (Store × List Char × Nat) :=
  if (AdvanceToNext rest ']' line).2.2 then
    Sum.inr ({ st with
        m_sections := st.m_sections ++
          [⟨some (rest.take (rest.length - (AdvanceToNext rest ']' line).1.length)), 0,
            st.m_keys.length⟩] },
      (AdvanceToNext rest ']' line).1.tail, (AdvanceToNext rest ']' line).2.1)
  else Sum.inl (Error.kSyntax, st)

/-- Embedding of the new-property branch of `IniFile::parse`
(lines 243-263). -/
def parseNewKey (st : Store) (s : List Char) (line : Nat) :
    (Error × Store) ⊕ (Store × List Char × Nat) :=
  match s with
  | [] => Sum.inr (st, [], line)
  | c :: _ =>
    if isdigit c then Sum.inl (Error.kSyntax, st)
    else
      if (AdvanceToNextNonAlphanumeric s line).2.2 then
        Sum.inr ({ st with
            m_keys := st.m_keys ++
              [⟨some (s.take (s.length - (AdvanceToNextNonAlphanumeric s line).1.length)),
                st.m_values.length, 0, none⟩],
            m_sections := updateLast (fun x => { x with m_count := x.m_count + 1 }) st.m_sections },
          (AdvanceToNextNonAlphanumeric s line).1, (AdvanceToNextNonAlphanumeric s line).2.1)
      else Sum.inl (Error.kSyntax, st)

/-- One iteration of the `while (*_str != 0)` loop of `IniFile::parse`
(lines 149-264): `Sum.inl` is an early return, `Sum.inr` the state at the
next loop head. -/
def parseStep (cn : CNum) (st : Store) (s : List Char) (line : Nat) :
    (Error × Store) ⊕ (Store × List Char × Nat) :=
  match (SkipWhitespace s line).1 with
  | [] => Sum.inr (st, [], (SkipWhitespace s line).2)
  | c :: rest =>
    if c = ';' then
      Sum.inr (st, (SkipLine (c :: rest) (SkipWhitespace s line).2).1,
        (SkipLine (c :: rest) (SkipWhitespace s line).2).2)
    else if c = '[' then parseSection st rest (SkipWhitespace s line).2
    else if c = '=' || c = ',' then parseSep cn st rest (SkipWhitespace s line).2
    else parseNewKey st (c :: rest) (SkipWhitespace s line).2

/-- The parse loop with fuel; `none` means the loop has not returned within
`fuel` iterations (the C++ loop can genuinely diverge). -/
def parseLoop (cn : CNum) : Nat → Store → List Char → Nat → Option (Error × Store)
  | 0, _, _, _ => none
  | fuel + 1, st, s, line =>
    match s with
    | [] => some (Error.kOk, st)
    | _ =>
      match parseStep cn st s line with
      | Sum.inl r => some r
      | Sum.inr (st1, s1, l1) => parseLoop cn fuel st1 s1 l1

/-- Embedding of `IniFile::parse`: push the default section when the store
has none yet, then run the loop with the line counter at 1. -/
def parse (cn : CNum) (fuel : Nat) (st : Store) (input : List Char) : Option (Error × Store) :=
  let st1 := if st.m_sections.isEmpty then
      { st with m_sections := [⟨kDefaultSection, 0, st.m_keys.length⟩] }
    else st
  parseLoop cn fuel st1 input 1

/-! ### Queries and destruction -/

/-- Embedding of an `IniFile::Property` view.  `m_first` is the index of the
first value of the match (`&m_values[m_valueOffset]`); `none` is the null
pointer of the empty view.  `m_type` is `some kBool` for the empty view and
the key's (possibly uninitialized) type for a match. -/
structure Property where
  m_type : Option ValueType
  m_count : Nat
  m_first : Option Nat
deriving DecidableEq, Repr

/-- The range of keys scanned by `IniFile::getProperty` (lines 279-289):
the whole key list by default, a section's range when the section hash
matches one. -/
def searchRange (st : Store) (sec : Hash) : List Key :=
  if sec ≠ kInvalidHash then
    match st.m_sections.find? (fun x => x.m_name == sec) with
    | some x => (st.m_keys.drop x.m_keyOffset).take x.m_count
    | none => st.m_keys
  else st.m_keys

/-- Embedding of `IniFile::getProperty` (lines 275-299). -/
def getProperty (st : Store) (key : Hash) (sec : Hash) : Property :=
  match (searchRange st sec).find? (fun k => k.m_key == key) with
  | some k => ⟨k.m_type, k.m_count, some k.m_valueOffset⟩
  | none => ⟨some ValueType.kBool, 0, none⟩

/-- Embedding of the destructor `IniFile::~IniFile` (lines 91-102): the
indices `j` at which `delete[] m_values[j].m_string` is executed, in order. -/
def freedIndices (st : Store) : List Nat :=
  (st.m_keys.filter (fun k => k.m_type == some ValueType.kString)).flatMap
    (fun k => (List.range k.m_count).map (fun j => k.m_valueOffset + j))

/-- Does a value hold an owned string buffer (was it pushed by the
string-value branch)? -/
def Value.isString : Value → Bool
  | Value.vString _ => true
  | _ => false

/-! ### Reference instantiation of the numeric collaborators -/

/-- Read a run of decimal digits: value, number of digits, rest. -/
def splitDigits : List Char → Nat → Nat → Nat × Nat × List Char
  | [], acc, n => (acc, n, [])
  | c :: cs, acc, n =>
    if isdigit c then splitDigits cs (acc * 10 + (c.toNat - 48)) (n + 1)
    else (acc, n, c :: cs)

/-- Reference model of the `strtol` collaborator on plain decimal tokens
(sign and digits; enough for every concrete scenario of the spec). -/
def strtolRef (s : List Char) : Int :=
  match s with
  | '-' :: cs => -(((splitDigits cs 0 0).1 : Int))
  | '+' :: cs => ((splitDigits cs 0 0).1 : Int)
  | _ => ((splitDigits s 0 0).1 : Int)

/-- Reference model of the `strtod` collaborator on plain decimal tokens
(sign, digits, optional fraction).  The rational is assembled with `mkRat`
over integer arithmetic: the value is `sign * (ip.fp) = sign * (ip * 10^n + fp) / 10^n`. -/
def strtodRef (s : List Char) : Rat :=
  let p : Int × List Char :=
    match s with
    | '-' :: cs => (-1, cs)
    | '+' :: cs => (1, cs)
    | _ => (1, s)
  let ip := splitDigits p.2 0 0
  let fp :=
    match ip.2.2 with
    | '.' :: cs => splitDigits cs 0 0
    | _ => (0, 0, ([] : List Char))
  mkRat (p.1 * ((ip.1 : Int) * ((10 : Nat) ^ fp.2.1 : Nat) + (fp.1 : Int))) ((10 : Nat) ^ fp.2.1)

/-- Reference instantiation of the numeric collaborators. -/
def cnumRef : CNum := ⟨strtolRef, strtodRef⟩

/-! ### Proof-support definitions -/

/-- Classification of a numeric token as worded by the specification for
claim C4, to be compared with the code's `classifyNumber`: first the
double-zero/integer-nonzero rule, then the integer-zero/double-nonzero rule,
otherwise `Double` iff the raw token contains one of the characters
`.`, `e`, `E`, `n`, `N` and `Int` if it contains none of them. -/
def numberClassSpec (cn : CNum) (tok : List Char) : ValueType × Value :=
  let l := cn.strtol tok
  let d := cn.strtod tok
  if d = 0 ∧ l ≠ 0 then (ValueType.kInt, Value.vInt l)
  else if l = 0 ∧ d ≠ 0 then (ValueType.kDouble, Value.vDouble d)
  else if tok.any (fun b => decide (b ∈ ['.', 'e', 'E', 'n', 'N'])) then
    (ValueType.kDouble, Value.vDouble d)
  else (ValueType.kInt, Value.vInt l)

/-- Check that a section list, starting at key offset `off`, chains
contiguously (each section starts where the previous one ended) and ends
exactly at key index `total`. -/
def chainFrom : Nat → List IniSection → Nat → Bool
  | off, [], total => off == total
  | off, x :: xs, total => (x.m_keyOffset == off) && chainFrom (off + x.m_count) xs total

/-- The section-partition invariant of the spec: the sections partition the
key list into contiguous, non-overlapping ranges in declaration order, the
first section starting at key index 0. -/
def SecInv (st : Store) : Prop := chainFrom 0 st.m_sections st.m_keys.length = true

/-- The section-partition invariant lifted to the result of one parser
iteration; a state that continues the loop additionally keeps at least one
section (only the last section's count is ever incremented). -/
def StepInv : (Error × Store) ⊕ (Store × List Char × Nat) → Prop
  | Sum.inl (_, st) => SecInv st
  | Sum.inr (st, _, _) => SecInv st ∧ st.m_sections ≠ []

/-- Store produced by parsing `x = 5` into a fresh `IniFile`. -/
def stX : Store :=
  ⟨[⟨kDefaultSection, 1, 0⟩], [⟨some ['x'], 0, 1, some ValueType.kInt⟩], [Value.vInt 5]⟩

/-- Store left behind by the failed parse of `a = 1, "x"`: the syntax error
aborts after the string branch has already retyped key `a` to `kString` and
pushed the string value, but before the count was incremented. -/
def stA : Store :=
  ⟨[⟨kDefaultSection, 1, 0⟩], [⟨some ['a'], 0, 1, some ValueType.kString⟩],
    [Value.vInt 1, Value.vString ['x']]⟩

/-- Intermediate store of the same parse just before the second separator:
key `a` holds the single `Int` value 1. -/
def stPre : Store :=
  ⟨[⟨kDefaultSection, 1, 0⟩], [⟨some ['a'], 0, 1, some ValueType.kInt⟩], [Value.vInt 1]⟩

/-! ### Lemmas about the lexer primitives -/

theorem SkipWhitespace_suffix (s : List Char) (line : Nat) :
    (SkipWhitespace s line).1 <:+ s := by
  induction s generalizing line with
  | nil => exact List.suffix_refl _
  | cons c cs ih =>
    simp only [SkipWhitespace]
    split
    · exact (ih _).trans (List.suffix_cons c cs)
    · exact List.suffix_refl _

theorem AdvanceToNext_suffix (s : List Char) (ch : Char) (line : Nat) :
    (AdvanceToNext s ch line).1 <:+ s := by
  induction s generalizing line with
  | nil => exact List.suffix_refl _
  | cons c cs ih =>
    simp only [AdvanceToNext]
    split
    · exact List.suffix_refl _
    · exact (ih _).trans (List.suffix_cons c cs)

theorem AdvanceToNextNonAlphanumeric_suffix (s : List Char) (line : Nat) :
    (AdvanceToNextNonAlphanumeric s line).1 <:+ s := by
  induction s generalizing line with
  | nil => exact List.suffix_refl _
  | cons c cs ih =>
    simp only [AdvanceToNextNonAlphanumeric]
    split
    · exact (ih _).trans (List.suffix_cons c cs)
    · exact List.suffix_refl _

theorem AdvanceToNextWhiteSpaceOrComma_suffix (s : List Char) (line : Nat) :
    (AdvanceToNextWhiteSpaceOrComma s line).1 <:+ s := by
  induction s generalizing line with
  | nil => exact List.suffix_refl _
  | cons c cs ih =>
    simp only [AdvanceToNextWhiteSpaceOrComma]
    split
    · exact (ih _).trans (List.suffix_cons c cs)
    · exact List.suffix_refl _

theorem SkipLineAux_suffix (s : List Char) : SkipLineAux s <:+ s := by
  induction s with
  | nil => exact List.suffix_refl _
  | cons c cs ih =>
    simp only [SkipLineAux]
    split
    · exact List.suffix_refl _
    · exact ih.trans (List.suffix_cons c cs)

theorem SkipLine_suffix (s : List Char) (line : Nat) : (SkipLine s line).1 <:+ s := by
  unfold SkipLine
  cases h : SkipLineAux s with
  | nil => exact List.nil_suffix
  | cons d cs =>
    have h1 : cs <:+ SkipLineAux s := h ▸ List.suffix_cons d cs
    exact h1.trans (SkipLineAux_suffix s)

/-- C9: every lexer cursor primitive (skip whitespace, advance to a
delimiter, advance while alphanumeric, advance to whitespace-or-comma, skip
line) is total on every buffer — each is a structurally terminating function
here — and never advances the cursor past the terminating null: the
remaining input it returns is a suffix of the buffer it was given. -/
theorem lexer_primitives_stay_in_buffer (s : List Char) (ch : Char) (line : Nat) :
    (SkipWhitespace s line).1 <:+ s ∧
    (AdvanceToNext s ch line).1 <:+ s ∧
    (AdvanceToNextNonAlphanumeric s line).1 <:+ s ∧
    (AdvanceToNextWhiteSpaceOrComma s line).1 <:+ s ∧
    (SkipLine s line).1 <:+ s :=
  ⟨SkipWhitespace_suffix s line, AdvanceToNext_suffix s ch line,
    AdvanceToNextNonAlphanumeric_suffix s line,
    AdvanceToNextWhiteSpaceOrComma_suffix s line, SkipLine_suffix s line⟩

/-! ### Claim C4: numeric classification -/

theorem charInStr_eq_mem (b : Char) (cs : List Char) :
    charInStr b cs = decide (b ∈ cs) := by
  induction cs with
  | nil => simp [charInStr]
  | cons c cs ih => by_cases h : b = c <;> simp [charInStr, h, ih]

theorem ContainsAny_eq_any (tok cs : List Char) :
    ContainsAny tok cs = tok.any (fun b => decide (b ∈ cs)) := by
  induction tok with
  | nil => simp [ContainsAny]
  | cons b bs ih =>
    by_cases h : b ∈ cs <;>
      simp [ContainsAny, charInStr_eq_mem, h, ih]

/-- C4: for every numeric token (with `l` and `d` the results of the
`strtol`/`strtod` collaborators on it), the classification of the value
follows the spec's order: `Int l` when `d == 0.0` and `l != 0`, else
`Double d` when `l == 0` and `d != 0.0`, otherwise `Double d` iff the raw
token contains one of `.`, `e`, `E`, `n`, `N` and `Int l` if it contains
none of them. -/
theorem classifyNumber_follows_spec_order (cn : CNum) (tok : List Char) :
    classifyNumber cn tok = numberClassSpec cn tok := by
  simp only [classifyNumber, numberClassSpec, ContainsAny_eq_any, dotEENN]

/-! ### Claims C3 and C10: lookup -/

/-- C3: for every store, key hash, and section hash that matches no parsed
section's name, `getProperty` with that section returns exactly the same
view as `getProperty` with no section: the scan falls back to the whole
flattened key list. -/
theorem getProperty_unmatched_section_falls_back (st : Store) (key sec : Hash)
    (h : ∀ x ∈ st.m_sections, x.m_name ≠ sec) :
    getProperty st key sec = getProperty st key kInvalidHash := by
  unfold getProperty searchRange
  by_cases hs : sec = kInvalidHash
  · subst hs; rfl
  · have hf : st.m_sections.find? (fun x => x.m_name == sec) = none :=
      List.find?_eq_none.mpr (fun x hx => by simpa using h x hx)
    simp [hs, hf]

/-- Witness for C3 on the store parsed from `x = 5` and the unmatched
section name `graphics`. -/
theorem getProperty_unmatched_section_falls_back_witness :
    getProperty stX (some ['x']) (some (String.toList "graphics")) =
      getProperty stX (some ['x']) kInvalidHash :=
  getProperty_unmatched_section_falls_back stX (some ['x'])
    (some (String.toList "graphics")) (by decide)

/-- C10: for every store and every key hash matching no key in the searched
range, `getProperty` returns the empty view — count 0, null first-value
pointer, type `kBool` — and in particular does not error. -/
theorem getProperty_miss_returns_empty_view (st : Store) (key sec : Hash)
    (h : ∀ k ∈ searchRange st sec, k.m_key ≠ key) :
    getProperty st key sec = ⟨some ValueType.kBool, 0, none⟩ := by
  unfold getProperty
  have hf : (searchRange st sec).find? (fun k => k.m_key == key) = none :=
    List.find?_eq_none.mpr (fun k hk => by simpa using h k hk)
  simp [hf]

/-- Witness for C10: looking up `missing` in the store parsed from `x = 5`
returns the empty view. -/
theorem getProperty_miss_returns_empty_view_witness :
    getProperty stX (some (String.toList "missing")) kInvalidHash =
      ⟨some ValueType.kBool, 0, none⟩ :=
  getProperty_miss_returns_empty_view stX (some (String.toList "missing"))
    kInvalidHash (by decide)

/-! ### Claim C6: boolean classification by leading character -/

/-- C6: every value token beginning with `t` or `f` is classified `Bool`
regardless of the rest of the token, and the stored boolean is `true` iff
the first character is `t`. -/
theorem parseValue_leading_tf_is_bool (cn : CNum) (c : Char) (rest : List Char)
    (line : Nat) (h : c = 't' ∨ c = 'f') :
    parseValue cn (c :: rest) line =
      ValueResult.ok ValueType.kBool (Value.vBool (if c = 't' then true else false))
        (AdvanceToNextWhiteSpaceOrComma (c :: rest) line).1
        (AdvanceToNextWhiteSpaceOrComma (c :: rest) line).2.1 := by
  have hq : ¬ c = '"' := by rcases h with h | h <;> subst h <;> decide
  have htf : (c = 't' || c = 'f') = true := by
    rcases h with h | h <;> subst h <;> decide
  simp [parseValue, hq, htf]

/-- Witness for C6: the token `tomato` parses as `Bool true`. -/
theorem parseValue_leading_tf_is_bool_witness :
    parseValue cnumRef ('t' :: String.toList "omato") 1 =
      ValueResult.ok ValueType.kBool (Value.vBool true) [] 1 :=
  (parseValue_leading_tf_is_bool cnumRef 't' (String.toList "omato") 1
    (Or.inl rfl)).trans (by decide)

/-! ### Claim C8: unterminated constructs -/

theorem AdvanceToNext_found (s : List Char) (ch : Char) (line : Nat) :
    (AdvanceToNext s ch line).2.2 = decide (ch ∈ s) := by
  induction s generalizing line with
  | nil => simp [AdvanceToNext]
  | cons c cs ih =>
    simp only [AdvanceToNext]
    by_cases h : c = ch
    · subst h; simp
    · rw [if_neg h, ih]
      have hne : ¬ ch = c := fun e => h e.symm
      simp [hne]

/-- C8: when the parser reaches a section header `[` and no `]` occurs in
the rest of the buffer, it returns a `Syntax` error; when it reaches an
opening `"` of a quoted value and no closing `"` occurs in the rest of the
buffer, the value scan fails with a `Syntax` error (and has already set the
key's type to `kString`). -/
theorem unterminated_section_or_string_syntax_error :
    (∀ (st : Store) (rest : List Char) (line : Nat), ']' ∉ rest →
      parseSection st rest line = Sum.inl (Error.kSyntax, st)) ∧
    (∀ (cn : CNum) (rest : List Char) (line : Nat), '"' ∉ rest →
      parseValue cn ('"' :: rest) line = ValueResult.err (some ValueType.kString)) := by
  constructor
  · intro st rest line h
    have hf : (AdvanceToNext rest ']' line).2.2 = false := by
      simp [AdvanceToNext_found, h]
    simp [parseSection, hf]
  · intro cn rest line h
    have hf : (AdvanceToNext rest '"' line).2.2 = false := by
      simp [AdvanceToNext_found, h]
    simp [parseValue, hf]

/-- Witness for C8: the unterminated header `[graphics` and the unterminated
string `"My Game` both produce `Syntax` errors. -/
theorem unterminated_section_or_string_syntax_error_witness :
    parseSection emptyStore (String.toList "graphics") 1 =
      Sum.inl (Error.kSyntax, emptyStore) ∧
    parseValue cnumRef ('"' :: String.toList "My Game") 1 =
      ValueResult.err (some ValueType.kString) :=
  ⟨unterminated_section_or_string_syntax_error.1 emptyStore
      (String.toList "graphics") 1 (by decide),
    unterminated_section_or_string_syntax_error.2 cnumRef
      (String.toList "My Game") 1 (by decide)⟩

/-! ### Lemmas about `updateLast` -/

theorem updateLast_nil {α : Type} (f : α → α) : updateLast f [] = [] := rfl

theorem updateLast_cons {α : Type} (f : α → α) (a : α) (l : List α) (h : l ≠ []) :
    updateLast f (a :: l) = a :: updateLast f l := by
  cases l with
  | nil => exact absurd rfl h
  | cons b m => rfl

theorem updateLast_ne_nil {α : Type} (f : α → α) (l : List α) (h : l ≠ []) :
    updateLast f l ≠ [] := by
  cases l with
  | nil => exact absurd rfl h
  | cons a m => cases m <;> simp [updateLast]

theorem updateLast_length {α : Type} (f : α → α) (l : List α) :
    (updateLast f l).length = l.length := by
  induction l with
  | nil => rfl
  | cons a m ih =>
    cases m with
    | nil => rfl
    | cons b m2 => simpa [updateLast] using ih

theorem updateLast_comp {α : Type} (f g : α → α) (l : List α) :
    updateLast g (updateLast f l) = updateLast (fun a => g (f a)) l := by
  induction l with
  | nil => rfl
  | cons a m ih =>
    cases m with
    | nil => rfl
    | cons b m2 =>
      rw [updateLast_cons f a (b :: m2) (by simp),
        updateLast_cons g a (updateLast f (b :: m2)) (updateLast_ne_nil f _ (by simp)),
        updateLast_cons (fun x => g (f x)) a (b :: m2) (by simp), ih]

theorem getLast?_updateLast {α : Type} (f : α → α) (l : List α) (a : α)
    (h : l.getLast? = some a) : (updateLast f l).getLast? = some (f a) := by
  induction l with
  | nil => simp at h
  | cons b m ih =>
    cases m with
    | nil =>
      have hb : b = a := by simpa using h
      subst hb
      simp [updateLast]
    | cons c m2 =>
      rw [List.getLast?_cons_cons] at h
      rw [updateLast_cons f b (c :: m2) (by simp)]
      have h2 := ih h
      cases hu : updateLast f (c :: m2) with
      | nil => exact absurd hu (updateLast_ne_nil f _ (by simp))
      | cons d m3 =>
        rw [hu] at h2
        rw [List.getLast?_cons_cons]
        exact h2

theorem pushValueToKey_getLast (st : Store) (tnew : ValueType) (v : Value) (k : Key)
    (hk : st.m_keys.getLast? = some k) :
    pushValueToKey st tnew v =
      if 0 < k.m_count ∧ some tnew ≠ k.m_type then
        Sum.inl (Error.kSyntax,
          { st with
              m_keys := updateLast (fun kk => { kk with m_type := some tnew }) st.m_keys,
              m_values := st.m_values ++ [v] })
      else
        Sum.inr
          { st with
              m_keys := updateLast
                (fun kk => { kk with m_type := some tnew, m_count := kk.m_count + 1 }) st.m_keys,
              m_values := st.m_values ++ [v] } := by
  unfold pushValueToKey
  simp only [hk]
  by_cases hc : 0 < k.m_count ∧ some tnew ≠ k.m_type
  · rw [if_pos hc, if_pos hc]
  · rw [if_neg hc, if_neg hc, updateLast_comp]

/-! ### Claim C7: homogeneous arrays -/

/-- C7: each successfully scanned value under a property name passes the
homogeneity check of the separator branch: if the key already holds values
(`0 < k.m_count`) and the new value's inferred type differs from the key's
recorded type, the branch returns a `Syntax` error (arrays must be
homogeneous) leaving the value pushed, the key retyped, and the count not
incremented; otherwise the value accumulates — it is appended to the value
list and the key's count is incremented by one, so a homogeneous list of
values gives the key a count equal to the number of values. -/
theorem parseSep_homogeneous_arrays (cn : CNum) (st : Store) (rest : List Char)
    (line : Nat) (s2 s3 : List Char) (l2 l3 : Nat) (t : ValueType) (v : Value) (k : Key)
    (hk : st.m_keys.getLast? = some k)
    (hq : skipComments (SkipWhitespace rest line).1 (SkipWhitespace rest line).2 = (s2, l2))
    (hv : parseValue cn s2 l2 = ValueResult.ok t v s3 l3) :
    (0 < k.m_count ∧ some t ≠ k.m_type →
      parseSep cn st rest line = Sum.inl (Error.kSyntax,
        { st with
            m_keys := updateLast (fun kk => { kk with m_type := some t }) st.m_keys,
            m_values := st.m_values ++ [v] })) ∧
    (k.m_count = 0 ∨ some t = k.m_type →
      parseSep cn st rest line = Sum.inr
        ({ st with
            m_keys := updateLast
              (fun kk => { kk with m_type := some t, m_count := kk.m_count + 1 }) st.m_keys,
            m_values := st.m_values ++ [v] }, s3, l3)) := by
  have hne : st.m_keys ≠ [] := by
    intro e
    rw [e] at hk
    simp at hk
  have hemp : st.m_keys.isEmpty = false := by
    cases hm : st.m_keys with
    | nil => exact absurd hm hne
    | cons a l => rfl
  unfold parseSep
  rw [hemp, hq]
  simp only [Bool.false_eq_true, if_false, hv]
  rw [pushValueToKey_getLast st t v k hk]
  constructor
  · intro hcond
    rw [if_pos hcond]
  · intro hcond
    have hnc : ¬(0 < k.m_count ∧ some t ≠ k.m_type) := by
      intro hc
      rcases hcond with h0 | he
      · have := hc.1
        omega
      · exact hc.2 he
    rw [if_neg hnc]

/-- Witness for C7, both sides on the store holding `a = 1`: appending the
string `"x"` (differing type) yields the `Syntax` error and the store of the
failed `a = 1, "x"` parse, while appending the `Int` 2 accumulates to
count 2. -/
theorem parseSep_homogeneous_arrays_witness :
    parseSep cnumRef stPre (String.toList " \"x\"") 1 = Sum.inl (Error.kSyntax, stA) ∧
    parseSep cnumRef stPre (String.toList " 2") 1 = Sum.inr
      (⟨[⟨kDefaultSection, 1, 0⟩], [⟨some ['a'], 0, 2, some ValueType.kInt⟩],
        [Value.vInt 1, Value.vInt 2]⟩, [], 1) :=
  ⟨((parseSep_homogeneous_arrays cnumRef stPre (String.toList " \"x\"") 1
      (String.toList "\"x\"") [] 1 1 ValueType.kString (Value.vString ['x'])
      ⟨some ['a'], 0, 1, some ValueType.kInt⟩ (by decide) (by decide) (by decide)).1
      (by decide)).trans (by decide),
    ((parseSep_homogeneous_arrays cnumRef stPre (String.toList " 2") 1
      (String.toList "2") [] 1 1 ValueType.kInt (Value.vInt 2)
      ⟨some ['a'], 0, 1, some ValueType.kInt⟩ (by decide) (by decide) (by decide)).2
      (Or.inr rfl)).trans (by decide)⟩

/-! ### Claim C5: sections partition the key list -/

theorem chainFrom_cons (off total : Nat) (x : IniSection) (xs : List IniSection) :
    chainFrom off (x :: xs) total =
      ((x.m_keyOffset == off) && chainFrom (off + x.m_count) xs total) := rfl

theorem chainFrom_append (secs : List IniSection) (off total : Nat) (nm : Hash)
    (h : chainFrom off secs total = true) :
    chainFrom off (secs ++ [⟨nm, 0, total⟩]) total = true := by
  induction secs generalizing off with
  | nil =>
    simp only [chainFrom, beq_iff_eq] at h
    subst h
    simp [chainFrom]
  | cons x xs ih =>
    simp only [chainFrom, Bool.and_eq_true] at h
    simp only [List.cons_append, chainFrom, Bool.and_eq_true]
    exact ⟨h.1, ih _ h.2⟩

theorem chainFrom_bumpLast (secs : List IniSection) (total : Nat) :
    ∀ off, secs ≠ [] → chainFrom off secs total = true →
      chainFrom off (updateLast (fun x => { x with m_count := x.m_count + 1 }) secs)
        (total + 1) = true := by
  induction secs with
  | nil => exact fun off hne _ => absurd rfl hne
  | cons x xs ih =>
    intro off _ h
    cases xs with
    | nil =>
      simp only [chainFrom, Bool.and_eq_true, beq_iff_eq] at h
      simp only [updateLast, chainFrom, Bool.and_eq_true, beq_iff_eq]
      exact ⟨h.1, by omega⟩
    | cons y ys =>
      rw [chainFrom_cons, Bool.and_eq_true] at h
      rw [updateLast_cons _ x (y :: ys) (by simp), chainFrom_cons, Bool.and_eq_true]
      exact ⟨h.1, ih (off + x.m_count) (by simp) h.2⟩

theorem SecInv_congr (st st' : Store) (hs : st'.m_sections = st.m_sections)
    (hk : st'.m_keys.length = st.m_keys.length) (h : SecInv st) : SecInv st' := by
  unfold SecInv at *
  rw [hs, hk]
  exact h

theorem parseSection_inv (st : Store) (rest : List Char) (line : Nat)
    (h : SecInv st) (_hne : st.m_sections ≠ []) :
    StepInv (parseSection st rest line) := by
  unfold parseSection
  split
  · refine ⟨?_, by simp⟩
    unfold SecInv at *
    exact chainFrom_append st.m_sections 0 st.m_keys.length _ h
  · exact h

theorem setLastKeyType_inv (st : Store) (tSet : Option ValueType) (h : SecInv st) :
    SecInv (setLastKeyType st tSet) := by
  cases tSet with
  | none => exact h
  | some t =>
    exact SecInv_congr st _ rfl (updateLast_length _ _) h

theorem pushValueToKey_none (st : Store) (tnew : ValueType) (v : Value)
    (hk : st.m_keys.getLast? = none) :
    pushValueToKey st tnew v = Sum.inl (Error.kSyntax, st) := by
  unfold pushValueToKey
  simp only [hk]

theorem pushValueToKey_sections_keys (st : Store) (tnew : ValueType) (v : Value) :
    (∀ e st', pushValueToKey st tnew v = Sum.inl (e, st') →
      st'.m_sections = st.m_sections ∧ st'.m_keys.length = st.m_keys.length) ∧
    (∀ st', pushValueToKey st tnew v = Sum.inr st' →
      st'.m_sections = st.m_sections ∧ st'.m_keys.length = st.m_keys.length) := by
  cases hk : st.m_keys.getLast? with
  | none =>
    rw [pushValueToKey_none st tnew v hk]
    constructor
    · intro e st' he
      cases he
      exact ⟨rfl, rfl⟩
    · intro st' he
      cases he
  | some k =>
    rw [pushValueToKey_getLast st tnew v k hk]
    by_cases hc : 0 < k.m_count ∧ some tnew ≠ k.m_type
    · rw [if_pos hc]
      constructor
      · intro e st' he
        cases he
        exact ⟨rfl, updateLast_length _ _⟩
      · intro st' he
        cases he
    · rw [if_neg hc]
      constructor
      · intro e st' he
        cases he
      · intro st' he
        cases he
        exact ⟨rfl, updateLast_length _ _⟩

theorem StepInv_pushMatch (st : Store) (t : ValueType) (v : Value) (s3 : List Char)
    (l3 : Nat) (h : SecInv st) (hne : st.m_sections ≠ []) :
    StepInv (match pushValueToKey st t v with
      | Sum.inl es => Sum.inl es
      | Sum.inr st1 => Sum.inr (st1, s3, l3)) := by
  cases hpk : pushValueToKey st t v with
  | inl es =>
    rcases es with ⟨e, st'⟩
    rcases (pushValueToKey_sections_keys st t v).1 e st' hpk with ⟨hs, hl⟩
    exact SecInv_congr st st' hs hl h
  | inr st1 =>
    rcases (pushValueToKey_sections_keys st t v).2 st1 hpk with ⟨hs, hl⟩
    exact ⟨SecInv_congr st st1 hs hl h, hs ▸ hne⟩

theorem parseSep_inv (cn : CNum) (st : Store) (rest : List Char) (line : Nat)
    (h : SecInv st) (hne : st.m_sections ≠ []) :
    StepInv (parseSep cn st rest line) := by
  unfold parseSep
  by_cases hemp : st.m_keys.isEmpty = true
  · rw [if_pos hemp]
    exact h
  · rw [if_neg hemp]
    cases hpv : parseValue cn
        (skipComments (SkipWhitespace rest line).1 (SkipWhitespace rest line).2).1
        (skipComments (SkipWhitespace rest line).1 (SkipWhitespace rest line).2).2 with
    | err tSet => exact setLastKeyType_inv st tSet h
    | ok t v s3 l3 => exact StepInv_pushMatch st t v s3 l3 h hne

theorem parseNewKey_inv (st : Store) (s : List Char) (line : Nat)
    (h : SecInv st) (hne : st.m_sections ≠ []) :
    StepInv (parseNewKey st s line) := by
  unfold parseNewKey
  split
  · exact ⟨h, hne⟩
  · split
    · exact h
    · split
      · refine ⟨?_, updateLast_ne_nil _ _ hne⟩
        unfold SecInv at *
        simp only [List.length_append, List.length_singleton]
        exact chainFrom_bumpLast st.m_sections st.m_keys.length 0 hne h
      · exact h

theorem parseStep_inv (cn : CNum) (st : Store) (s : List Char) (line : Nat)
    (h : SecInv st) (hne : st.m_sections ≠ []) :
    StepInv (parseStep cn st s line) := by
  unfold parseStep
  split
  · exact ⟨h, hne⟩
  · split
    · exact ⟨h, hne⟩
    · split
      · exact parseSection_inv st _ _ h hne
      · split
        · exact parseSep_inv cn st _ _ h hne
        · exact parseNewKey_inv st _ _ h hne

theorem parseLoop_inv (cn : CNum) (fuel : Nat) (st : Store) (s : List Char)
    (line : Nat) (e : Error) (st' : Store) (h : SecInv st)
    (hne : st.m_sections ≠ []) (hp : parseLoop cn fuel st s line = some (e, st')) :
    SecInv st' := by
  induction fuel generalizing st s line with
  | zero => cases hp
  | succ fuel ih =>
    unfold parseLoop at hp
    split at hp
    · cases hp
      exact h
    · cases hstep : parseStep cn st s line with
      | inl r =>
        rw [hstep] at hp
        cases hp
        have := parseStep_inv cn st s line h hne
        rw [hstep] at this
        exact this
      | inr c =>
        rcases c with ⟨st1, s1, l1⟩
        rw [hstep] at hp
        have hinv := parseStep_inv cn st s line h hne
        rw [hstep] at hinv
        exact ih st1 s1 l1 hinv.1 hinv.2 hp

/-- C5: after every parse call (successful or errored) on a store already
satisfying the section-partition invariant (in particular a fresh store),
the sections still partition the key list into contiguous, non-overlapping
ranges in declaration order: the first section has key offset 0, each
section starts where the previous one ends, and the last one ends at the
end of the key list. -/
theorem parse_sections_partition (cn : CNum) (fuel : Nat) (st0 : Store)
    (input : List Char) (e : Error) (st' : Store) (h0 : SecInv st0)
    (hp : parse cn fuel st0 input = some (e, st')) : SecInv st' := by
  unfold parse at hp
  split at hp
  · rename_i hemp
    have hkeys : st0.m_keys.length = 0 := by
      unfold SecInv at h0
      rw [List.isEmpty_iff] at hemp
      rw [hemp] at h0
      simp only [chainFrom, beq_iff_eq] at h0
      omega
    refine parseLoop_inv cn fuel _ input 1 e st' ?_ (by simp) hp
    unfold SecInv
    simp [chainFrom, hkeys]
  · rename_i hemp
    have hne : st0.m_sections ≠ [] := by
      intro hnil
      exact hemp (by simp [hnil])
    exact parseLoop_inv cn fuel st0 input 1 e st' h0 hne hp

/-- Witness for C5: the fresh store satisfies the invariant, and so does the
store parsed from `x = 5`. -/
theorem parse_sections_partition_witness : SecInv stX :=
  parse_sections_partition cnumRef 32 emptyStore (String.toList "x = 5")
    Error.kOk stX (by unfold SecInv; decide) (by decide)

/-! ### Claim C1: destruction safety after a syntax error -/

/-- C1 fails on the code: parsing `a = 1, "x"` returns the `Syntax` error of
the homogeneity check, but the error path has already retyped key `a` to
`kString` (and pushed the string value without incrementing the count), so
the key's recorded type is `String` while its value range `[0, 1)` holds the
`Int` value 1 — not an owned string buffer.  The destructor therefore
executes `delete[] m_values[0].m_string` on the stored integer
(reinterpreting it as a pointer) and never frees the actual owned string
buffer at index 1: it does not release exactly the owned string buffers. -/
theorem destructor_frees_nonstring_after_syntax_error :
    parse cnumRef 32 emptyStore (String.toList "a = 1, \"x\"") =
      some (Error.kSyntax, stA) ∧
    stA.m_keys.map Key.m_type = [some ValueType.kString] ∧
    freedIndices stA = [0] ∧
    stA.m_values.map Value.isString = [false, true] := by decide

/-! ### Claim C2: the `x = 5` lookup scenario -/

/-- C2 as stated is false on the code: after parsing `x = 5`,
`getProperty("x", "graphics")` does not return an empty view — its count
is 1, not 0, because a section name matching no parsed section makes the
scan fall back to the whole key list. -/
theorem getProperty_x_graphics_counterexample :
    parse cnumRef 32 emptyStore (String.toList "x = 5") = some (Error.kOk, stX) ∧
    ¬ (getProperty stX (some ['x']) (some (String.toList "graphics"))).m_count = 0 := by
  decide

/-- C2 amended: parsing `x = 5` with no leading section header places `x` in
the default section, and `getProperty("x", none)` finds it (count 1); but
`getProperty("x", "graphics")` also finds it, returning exactly the same
view as the section-less lookup, because the unmatched section name falls
back to scanning the entire key list. -/
theorem getProperty_x_graphics_amended :
    parse cnumRef 32 emptyStore (String.toList "x = 5") = some (Error.kOk, stX) ∧
    stX.m_sections = [⟨kDefaultSection, 1, 0⟩] ∧
    (getProperty stX (some ['x']) kInvalidHash).m_count = 1 ∧
    getProperty stX (some ['x']) (some (String.toList "graphics")) =
      getProperty stX (some ['x']) kInvalidHash := by
  decide

end Ini
